import Mathlib

/-!
Verification of the name-matching core of the PokemonScanner repository.

The embedding models the string pipeline of `normalizeName`, the three-tier
`findMatchingCard` resolver with its internal `levenshteinDistance`, and the
batch validation pass of `findMissingPokemonInImage` (storage/gemini module).

Strings are modelled as Lean `String` (lists of characters); the inputs the
system handles are ASCII, and the JavaScript primitives (`toLowerCase`,
`trim`, the `\s` character class, `String.prototype.includes`) are embedded
at their ASCII behaviour.  JavaScript numbers are modelled by `ℚ`; the one
place where IEEE semantics is observable (`NaN` from a 0/0 similarity, whose
comparisons are all false) is modelled by an explicit guard, noted in place.
-/

-- Batteries marks the `Rat` field operations irreducible, which blocks
-- `decide`-style evaluation of concrete confidences; restore the default
-- reducibility for this development.
attribute [local semireducible] Rat.add Rat.sub Rat.mul Rat.inv

/-- ASCII lower-casing, as `String.prototype.toLowerCase` acts on ASCII
characters: `A`..`Z` (65..90) map 32 code points up, all else unchanged. -/
def toLowerChar (c : Char) : Char :=
  if 65 ≤ c.toNat ∧ c.toNat ≤ 90 then Char.ofNat (c.toNat + 32) else c

/-- `toLowerCase` over a whole string. -/
def jsToLower (s : String) : String :=
  String.mk (s.data.map toLowerChar)

/-- The ASCII part of the JavaScript whitespace class used by both `trim`
and the regex `\s`: tab, LF, VT, FF, CR, space. -/
def isWS (c : Char) : Bool :=
  c.toNat = 32 || c.toNat = 9 || c.toNat = 10 || c.toNat = 11 || c.toNat = 12 || c.toNat = 13

/-- Leading/trailing-whitespace removal on a character list (`trim`). -/
def trimList (l : List Char) : List Char :=
  ((l.dropWhile isWS).reverse.dropWhile isWS).reverse

/-- `String.prototype.trim`. -/
def jsTrim (s : String) : String :=
  String.mk (trimList s.data)

/-- Literal matcher: if `tok` is a prefix of `l`, return the remainder. -/
def litMatchR : List Char → List Char → Option (List Char)
  | [], l => some l
  | _ :: _, [] => none
  | t :: ts, c :: cs => if t = c then litMatchR ts cs else none

/-- `dropWhile` over the whitespace class: the greedy `\s*`. -/
def skipWS (l : List Char) : List Char :=
  l.dropWhile isWS

/-- The alternative `lv\.?\s*x` of the suffix-stripping regex: `lv`, an
optional dot, optional whitespace, then `x`.  Greedy matching of `\.?` and
`\s*` is canonical here: no backtracking can rescue a failed parse because
`x` and `.` are not whitespace. -/
def lvxMatchR (l : List Char) : Option (List Char) :=
  match l with
  | 'l' :: 'v' :: rest =>
    let rest2 := match rest with
      | '.' :: r => r
      | _ => rest
    match skipWS rest2 with
    | 'x' :: r2 => some r2
    | _ => none
  | _ => none

/-- The regex alternation
`(ex|gx|v|vmax|vstar|v-union|break|lv\.?\s*x|delta|shining|radiant|galarian|alolan|hisuian|paldean)`
tried at the head of `l`.  JavaScript alternation is ordered, first success
wins; in particular the bare `v` alternative fires before `vmax`, `vstar`
and `v-union` are ever tried (those three are kept here for fidelity even
though they are unreachable). -/
def altMatchR (l : List Char) : Option (List Char) :=
  litMatchR "ex".data l <|> litMatchR "gx".data l <|> litMatchR "v".data l <|>
  litMatchR "vmax".data l <|> litMatchR "vstar".data l <|> litMatchR "v-union".data l <|>
  litMatchR "break".data l <|> lvxMatchR l <|> litMatchR "delta".data l <|>
  litMatchR "shining".data l <|> litMatchR "radiant".data l <|> litMatchR "galarian".data l <|>
  litMatchR "alolan".data l <|> litMatchR "hisuian".data l <|> litMatchR "paldean".data l

/-- One attempt of the whole pattern `\s*(…)\s*` at the head of `l`:
greedy leading whitespace, the alternation, greedy trailing whitespace.
(No alternative starts with a whitespace character, so taking the leading
`\s*` maximal loses no matches.) -/
def tryMatchAt (l : List Char) : Option (List Char) :=
  match altMatchR (skipWS l) with
  | some r => some (skipWS r)
  | none => none

/-- The global-replace scan of `.replace(/\s*(…)\s*/gi, '')`: at each
position try the pattern; on success drop the matched span and resume after
it, otherwise keep one character and move on.  Every match consumes at least
one character, so the input length is sufficient fuel. -/
def stripTokensAux : Nat → List Char → List Char
  | 0, l => l
  | _ + 1, [] => []
  | fuel + 1, c :: rest =>
    match tryMatchAt (c :: rest) with
    | some r => stripTokensAux fuel r
    | none => c :: stripTokensAux fuel rest

/-- Suffix/variant-token removal over a whole character list. -/
def stripTokens (l : List Char) : List Char :=
  stripTokensAux l.length l

/-- The character class kept by `.replace(/[^a-z0-9]/g, '')`. -/
def isAlnumLower (c : Char) : Bool :=
  (97 ≤ c.toNat && c.toNat ≤ 122) || (48 ≤ c.toNat && c.toNat ≤ 57)

/-- The OCR-confusable substitutions `0→o`, `1→l`, `5→s`
(48, 49, 53 are the code points of `0`, `1`, `5`). -/
def substituteChar (c : Char) : Char :=
  if c.toNat = 48 then 'o'
  else if c.toNat = 49 then 'l'
  else if c.toNat = 53 then 's'
  else c

/-- `normalizeName` of the source: lower-case, trim, strip variant tokens,
keep only `[a-z0-9]`, then substitute confusable digits. -/
def normalizeName (name : String) : String :=
  let lowered := jsToLower name
  let trimmed := jsTrim lowered
  let stripped := stripTokens trimmed.data
  let filtered := stripped.filter isAlnumLower
  String.mk (filtered.map substituteChar)

example : normalizeName "Pikachu VMAX" = "pikachumax" := by decide
example : normalizeName "pikachu" = "pikachu" := by decide
example : normalizeName "" = "" := by decide
example : normalizeName "e.x" = "ex" := by decide
example : normalizeName "ex" = "" := by decide
example : normalizeName "GX" = "" := by decide
example : normalizeName "Lv. X Mewtwo" = "mewtwo" := by decide

/-- One cell-by-cell pass of the Levenshtein dynamic-programming row.
`arest` are the remaining characters of `a` (columns), the previous row is
carried with its head at the diagonal cell and second entry above the cell
being computed, `left` is the freshly computed cell to the left.  The cell
formula is the source's
`min(matrix[i-1][j-1]+1, matrix[i][j-1]+1, matrix[i-1][j]+1)` with the
equal-character diagonal copy. -/
def levNextRowAux (bc : Char) : List Char → List Nat → Nat → List Nat
  | aj :: arest, pd :: pu :: prest, left =>
    let cell := if bc = aj then pd else min (pd + 1) (min (left + 1) (pu + 1))
    cell :: levNextRowAux bc arest (pu :: prest) cell
  | _, _, _ => []

/-- The next full DP row: its first cell is `matrix[i][0] = i`, one more than
the previous row's first cell. -/
def levNextRow (bc : Char) (a : List Char) (prev : List Nat) : List Nat :=
  match prev with
  | p0 :: _ => (p0 + 1) :: levNextRowAux bc a prev (p0 + 1)
  | [] => []

/-- `levenshteinDistance` of the source: build the
`(len b + 1) × (len a + 1)` table row by row, starting from
`matrix[0][j] = j`, and read off `matrix[b.length][a.length]`. -/
def levenshteinDistance (a b : String) : Nat :=
  let row0 := List.range (a.data.length + 1)
  let finalRow := b.data.foldl (fun prev bc => levNextRow bc a.data prev) row0
  finalRow.getLastD 0

example : levenshteinDistance "kitten" "sitting" = 3 := by decide
example : levenshteinDistance "" "abc" = 3 := by decide
example : levenshteinDistance "abc" "" = 3 := by decide
example : levenshteinDistance "abc" "abc" = 0 := by decide

/-- `String.prototype.includes`: `needle` occurs contiguously in `hay`
(the empty needle always occurs). -/
def jsIncludes (hay needle : List Char) : Bool :=
  match hay with
  | [] => (litMatchR needle []).isSome
  | _ :: rest => (litMatchR needle hay).isSome || jsIncludes rest needle

example : jsIncludes "charizard".data "ariz".data = true := by decide
example : jsIncludes "mewtwo".data "mew two".data = false := by decide
example : jsIncludes "abc".data "".data = true := by decide

/-- The result record of `findMatchingCard`: the `match`/`confidence`
object of the source. -/
structure MatchResult where
  matched : Option String
  confidence : ℚ
deriving DecidableEq, Repr

/-- The containment-tier similarity
`min(len a, len b) / max(len a, len b)` over normalized lengths. -/
def ratioOf (a b : String) : ℚ :=
  (min a.length b.length : ℚ) / (max a.length b.length : ℚ)

/-- The fuzzy-tier similarity `1 - distance / max(len a, len b)` over
normalized strings. -/
def fuzzySim (a b : String) : ℚ :=
  1 - (levenshteinDistance a b : ℚ) / ((max a.length b.length : Nat) : ℚ)

/-- The second loop of `findMatchingCard`: return the first card whose
normalized form contains (or is contained in) the normalized detected name
with length ratio strictly above 0.7; a containing card at or below the
threshold is skipped and the loop continues.  When both normalized strings
are empty the source's `0/0` similarity is `NaN` and `NaN > 0.7` is false,
which coincides with `ℚ`'s `0/0 = 0` here, so no guard is needed. -/
def containTier (nd : String) : List String → Option (String × ℚ)
  | [] => none
  | card :: rest =>
    let nc := normalizeName card
    if jsIncludes nc.data nd.data || jsIncludes nd.data nc.data then
      if ratioOf nd nc > 7/10 then some (card, ratioOf nd nc)
      else containTier nd rest
    else containTier nd rest

/-- The third loop of `findMatchingCard`: track the best
`1 - distance/maxLen` similarity that strictly beats both the running best
and 0.75.  When `maxLen = 0` the source's similarity is `NaN`, whose
comparisons are all false, so the entry is skipped; the guard models that
(it is also unreachable once the exact tier has failed). -/
def fuzzyLoop (nd : String) : List String → Option String → ℚ → Option String × ℚ
  | [], bestMatch, bestScore => (bestMatch, bestScore)
  | card :: rest, bestMatch, bestScore =>
    let nc := normalizeName card
    let maxLen := max nd.length nc.length
    if maxLen = 0 then fuzzyLoop nd rest bestMatch bestScore
    else
      let similarity : ℚ := 1 - (levenshteinDistance nd nc : ℚ) / (maxLen : ℚ)
      if similarity > bestScore ∧ similarity > 3/4 then fuzzyLoop nd rest (some card) similarity
      else fuzzyLoop nd rest bestMatch bestScore

/-- `findMatchingCard` of the source: exact normalized match (first in list
order, confidence 1), else first qualifying containment match, else the
best fuzzy match above 0.75, else no match with confidence 0. -/
def findMatchingCard (detectedName : String) (missingList : List String) : MatchResult :=
  let normalizedDetected := normalizeName detectedName
  match missingList.find? (fun card => normalizeName card == normalizedDetected) with
  | some card => ⟨some card, 1⟩
  | none =>
    match containTier normalizedDetected missingList with
    | some (card, conf) => ⟨some card, conf⟩
    | none =>
      let best := fuzzyLoop normalizedDetected missingList none 0
      ⟨best.1, best.2⟩

example : findMatchingCard "Charizard" ["Charizard", "Blastoise"] = ⟨some "Charizard", 1⟩ := by decide
example : findMatchingCard "Charizar" ["Charizard"] = ⟨some "Charizard", 8/9⟩ := by decide
example : findMatchingCard "Pikachi" ["Pikachu"] = ⟨some "Pikachu", 6/7⟩ := by decide
example : findMatchingCard "Pikachu" ["Raichu", "Eevee"] = ⟨none, 0⟩ := by decide
example : findMatchingCard "" [] = ⟨none, 0⟩ := by decide
example : findMatchingCard "!!!" ["GX"] = ⟨some "GX", 1⟩ := by decide

/-- The case-insensitive equals-or-substring-either-way predicate of the
validation pass in `findMissingPokemonInImage`. -/
def storageNameMatches (missing name : String) : Bool :=
  jsToLower missing == jsToLower name
  || jsIncludes (jsToLower missing).data (jsToLower name).data
  || jsIncludes (jsToLower name).data (jsToLower missing).data

/-- The validation/reconciliation pass of `findMissingPokemonInImage`:
filter the model's reported names to those matching some missing-list entry,
then map each survivor through `missingList.find(...) || name`.  The `||`
falls back to the raw name both when `find` returns `undefined` and when the
found entry is the empty string, which JavaScript treats as falsy. -/
def validateDetected (foundPokemon missingList : List String) : List String :=
  let validNames := foundPokemon.filter (fun name =>
    missingList.any (fun missing => storageNameMatches missing name))
  validNames.map (fun name =>
    match missingList.find? (fun missing => storageNameMatches missing name) with
    | some m => if m = "" then name else m
    | none => name)

example : validateDetected ["pikachu", "mew two", "nonexistent"] ["Pikachu", "Mewtwo"] = ["Pikachu"] := by decide

/-- Reference edit distance: the classic unit-cost recurrence, used to state
what the dynamic-programming table computes. -/
def lev : List Char → List Char → Nat
  | [], ys => ys.length
  | x :: xs, [] => (x :: xs).length
  | x :: xs, y :: ys =>
    if x = y then lev xs ys
    else 1 + min (lev xs ys) (min (lev (x :: xs) ys) (lev xs (y :: ys)))
termination_by a b => a.length + b.length

theorem lev_nil_right (l : List Char) : lev l [] = l.length := by
  cases l <;> simp [lev]

theorem lev_self (l : List Char) : lev l l = 0 := by
  induction l with
  | nil => simp [lev]
  | cons x xs ih => simp [lev, ih]

/-- Edit distance between two prefixes, read off at their right ends: the
quantity stored in the DP cells. -/
def levPre (p q : List Char) : Nat :=
  lev p.reverse q.reverse

theorem levPre_nil_left (q : List Char) : levPre [] q = q.length := by
  simp [levPre, lev]

theorem levPre_nil_right (p : List Char) : levPre p [] = p.length := by
  simp [levPre, lev_nil_right]

theorem levPre_snoc (p q : List Char) (c d : Char) :
    levPre (p ++ [c]) (q ++ [d]) =
      if c = d then levPre p q
      else 1 + min (levPre p q) (min (levPre (p ++ [c]) q) (levPre p (q ++ [d]))) := by
  simp [levPre, List.reverse_append, lev]

/-- The intended contents of one DP row: for the `b`-prefix `q`, the cell at
the `a`-prefix `p ++ (first k of arest)` for each `k`. -/
def levRowSpec (q : List Char) : List Char → List Char → List Nat
  | [], p => [levPre p q]
  | c :: rest, p => levPre p q :: levRowSpec q rest (p ++ [c])

theorem levRowSpec_cons (q arest p : List Char) :
    ∃ t, levRowSpec q arest p = levPre p q :: t := by
  cases arest <;> exact ⟨_, rfl⟩

theorem levNextRowAux_spec (bc : Char) (q : List Char) :
    ∀ arest p : List Char,
      levNextRowAux bc arest (levRowSpec q arest p) (levPre p (q ++ [bc])) =
        (levRowSpec (q ++ [bc]) arest p).tail := by
  intro arest
  induction arest with
  | nil =>
    intro p
    simp [levRowSpec, levNextRowAux]
  | cons c rest ih =>
    intro p
    obtain ⟨t, ht⟩ := levRowSpec_cons q rest (p ++ [c])
    obtain ⟨t2, ht2⟩ := levRowSpec_cons (q ++ [bc]) rest (p ++ [c])
    have hcell :
        (if bc = c then levPre p q
          else min (levPre p q + 1)
            (min (levPre p (q ++ [bc]) + 1) (levPre (p ++ [c]) q + 1)))
          = levPre (p ++ [c]) (q ++ [bc]) := by
      rw [levPre_snoc p q c bc]
      by_cases h : c = bc
      · subst h; simp
      · rw [if_neg h, if_neg (fun hh => h hh.symm)]
        omega
    show levNextRowAux bc (c :: rest)
        (levPre p q :: levRowSpec q rest (p ++ [c])) (levPre p (q ++ [bc]))
      = (levPre p (q ++ [bc]) :: levRowSpec (q ++ [bc]) rest (p ++ [c])).tail
    rw [ht]
    simp only [levNextRowAux, List.tail_cons]
    rw [hcell, ← ht, ih (p ++ [c]), ht2]
    simp

theorem levNextRow_spec (bc : Char) (q a : List Char) :
    levNextRow bc a (levRowSpec q a []) = levRowSpec (q ++ [bc]) a [] := by
  obtain ⟨t, ht⟩ := levRowSpec_cons q a []
  obtain ⟨t2, ht2⟩ := levRowSpec_cons (q ++ [bc]) a []
  have haux := levNextRowAux_spec bc q a []
  have hhead : levPre ([] : List Char) q + 1 = levPre [] (q ++ [bc]) := by
    simp [levPre_nil_left]
  rw [ht]
  simp only [levNextRow]
  rw [← ht, hhead, haux, ht2]
  simp

theorem foldl_levNextRow (a : List Char) :
    ∀ bl q : List Char,
      bl.foldl (fun prev bc => levNextRow bc a prev) (levRowSpec q a []) =
        levRowSpec (q ++ bl) a [] := by
  intro bl
  induction bl with
  | nil => intro q; simp
  | cons bc bl ih =>
    intro q
    simp only [List.foldl_cons]
    rw [levNextRow_spec bc q a, ih (q ++ [bc])]
    simp

theorem levRowSpec_range :
    ∀ arest p : List Char,
      levRowSpec [] arest p = (List.range (arest.length + 1)).map (fun k => p.length + k) := by
  intro arest
  induction arest with
  | nil =>
    intro p
    simp [levRowSpec, levPre_nil_right, List.range_succ]
  | cons c rest ih =>
    intro p
    simp only [levRowSpec, ih (p ++ [c]), levPre_nil_right, List.length_cons]
    conv_rhs => rw [List.range_succ_eq_map]
    simp only [List.map_cons, List.map_map]
    congr 1
    have hf : (fun k => (p ++ [c]).length + k) = ((fun k => p.length + k) ∘ Nat.succ) := by
      funext k
      simp only [Function.comp_apply, List.length_append, List.length_cons, List.length_nil]
      omega
    rw [hf]

theorem levRowSpec_getLast (q : List Char) :
    ∀ arest p : List Char, (levRowSpec q arest p).getLastD 0 = levPre (p ++ arest) q := by
  intro arest
  induction arest with
  | nil =>
    intro p
    simp [levRowSpec]
  | cons c rest ih =>
    intro p
    obtain ⟨t, ht⟩ := levRowSpec_cons q rest (p ++ [c])
    have hih := ih (p ++ [c])
    rw [ht] at hih
    rw [List.getLastD_cons] at hih
    simp only [levRowSpec]
    rw [List.getLastD_cons, ht, List.getLastD_cons, hih]
    simp

/-- The DP table of the source computes the reference edit distance (read
through the reversal that turns prefix recursion into list recursion). -/
theorem levenshteinDistance_eq (a b : String) :
    levenshteinDistance a b = lev a.data.reverse b.data.reverse := by
  have h0 : List.range (a.data.length + 1) = levRowSpec [] a.data [] := by
    rw [levRowSpec_range a.data []]
    simp
  show (List.foldl (fun prev bc => levNextRow bc a.data prev)
      (List.range (a.data.length + 1)) b.data).getLastD 0 = _
  rw [h0, foldl_levNextRow a.data b.data [], List.nil_append, levRowSpec_getLast b.data a.data []]
  simp [levPre]

/-- The qualifying condition of the containment tier, as a predicate:
one normalized string contains the other and the length ratio clears 0.7. -/
def containPred (nd card : String) : Bool :=
  let nc := normalizeName card
  (jsIncludes nc.data nd.data || jsIncludes nd.data nc.data)
    && decide (ratioOf nd nc > 7/10)

theorem containTier_eq (nd : String) :
    ∀ l : List String,
      containTier nd l =
        (l.find? (containPred nd)).map (fun card => (card, ratioOf nd (normalizeName card))) := by
  intro l
  induction l with
  | nil => rfl
  | cons card rest ih =>
    by_cases h1 : (jsIncludes (normalizeName card).data nd.data
        || jsIncludes nd.data (normalizeName card).data) = true
    · by_cases h2 : ratioOf nd (normalizeName card) > 7/10
      · simp [containTier, List.find?, containPred, h1, h2]
      · simp [containTier, List.find?, containPred, h1, h2, ih]
    · simp [containTier, List.find?, containPred, h1, ih]

theorem fuzzyLoop_stay (nd : String) :
    ∀ (l : List String) (b : Option String) (s : ℚ),
      (∀ c ∈ l, max nd.length (normalizeName c).length = 0 ∨
        ¬(fuzzySim nd (normalizeName c) > s ∧ fuzzySim nd (normalizeName c) > 3/4)) →
      fuzzyLoop nd l b s = (b, s) := by
  intro l
  induction l with
  | nil => intro b s _; rfl
  | cons card rest ih =>
    intro b s h
    have hc := h card (by simp)
    have htail : ∀ c ∈ rest, max nd.length (normalizeName c).length = 0 ∨
        ¬(fuzzySim nd (normalizeName c) > s ∧ fuzzySim nd (normalizeName c) > 3/4) :=
      fun c hc2 => h c (by simp [hc2])
    by_cases h0 : max nd.length (normalizeName card).length = 0
    · simp only [fuzzyLoop, h0, if_pos rfl]
      simp only [h0] at *
      simpa using ih b s htail
    · have hcond := hc.resolve_left h0
      simp only [fuzzySim] at hcond
      simp only [fuzzyLoop, h0, if_neg h0, if_false]
      rw [if_neg hcond]
      exact ih b s htail

theorem fuzzyLoop_prefix (nd : String) (S : ℚ) :
    ∀ (l1 rest : List String) (b : Option String) (s : ℚ),
      s < S →
      (∀ c ∈ l1, fuzzySim nd (normalizeName c) < S ∨
        max nd.length (normalizeName c).length = 0) →
      ∃ b2 s2, fuzzyLoop nd (l1 ++ rest) b s = fuzzyLoop nd rest b2 s2 ∧ s2 < S := by
  intro l1
  induction l1 with
  | nil => intro rest b s hs _; exact ⟨b, s, rfl, hs⟩
  | cons card l1 ih =>
    intro rest b s hs h
    have htail : ∀ c ∈ l1, fuzzySim nd (normalizeName c) < S ∨
        max nd.length (normalizeName c).length = 0 :=
      fun c hc2 => h c (by simp [hc2])
    rw [List.cons_append]
    by_cases h0 : max nd.length (normalizeName card).length = 0
    · simp only [fuzzyLoop, h0, if_pos rfl]
      simpa using ih rest b s hs htail
    · by_cases hcond : fuzzySim nd (normalizeName card) > s ∧
          fuzzySim nd (normalizeName card) > 3/4
      · have hlt : fuzzySim nd (normalizeName card) < S := (h card (by simp)).resolve_right h0
        have hcond2 := hcond
        simp only [fuzzySim] at hcond2
        simp only [fuzzyLoop, if_neg h0]
        rw [if_pos hcond2]
        exact ih rest (some card) _ hlt htail
      · have hcond2 := hcond
        simp only [fuzzySim] at hcond2
        simp only [fuzzyLoop, if_neg h0]
        rw [if_neg hcond2]
        exact ih rest b s hs htail

theorem fuzzyLoop_mem (nd : String) :
    ∀ (l : List String) (b : Option String) (s : ℚ) (c : String) (s2 : ℚ),
      fuzzyLoop nd l b s = (some c, s2) → b = some c ∨ c ∈ l := by
  intro l
  induction l with
  | nil =>
    intro b s c s2 h
    simp only [fuzzyLoop] at h
    exact Or.inl (by simpa using congrArg Prod.fst h)
  | cons card rest ih =>
    intro b s c s2 h
    by_cases h0 : max nd.length (normalizeName card).length = 0
    · simp only [fuzzyLoop, h0, if_pos rfl] at h
      rcases ih _ _ _ _ h with hb | hm
      · exact Or.inl hb
      · exact Or.inr (by simp [hm])
    · simp only [fuzzyLoop, if_neg h0] at h
      by_cases hcond : fuzzySim nd (normalizeName card) > s ∧
          fuzzySim nd (normalizeName card) > 3/4
      · have hcond2 := hcond
        simp only [fuzzySim] at hcond2
        rw [if_pos hcond2] at h
        rcases ih _ _ _ _ h with hb | hm
        · have : card = c := by simpa using hb
          exact Or.inr (by simp [this])
        · exact Or.inr (by simp [hm])
      · have hcond2 := hcond
        simp only [fuzzySim] at hcond2
        rw [if_neg hcond2] at h
        rcases ih _ _ _ _ h with hb | hm
        · exact Or.inl hb
        · exact Or.inr (by simp [hm])

/-- Character class of `normalizeName`'s output: lowercase letters, or the
digits that survive the confusable substitution (2,3,4,6,7,8,9). -/
def goodChar (c : Char) : Prop :=
  (97 ≤ c.toNat ∧ c.toNat ≤ 122) ∨ (50 ≤ c.toNat ∧ c.toNat ≤ 57 ∧ c.toNat ≠ 53)

instance goodCharDec : DecidablePred goodChar := fun c => by
  unfold goodChar
  infer_instance

theorem substituteChar_mem_good (c : Char) (h : isAlnumLower c = true) :
    goodChar (substituteChar c) := by
  simp only [isAlnumLower, Bool.or_eq_true, Bool.and_eq_true, decide_eq_true_eq] at h
  unfold substituteChar
  by_cases h48 : c.toNat = 48
  · rw [if_pos h48]; decide
  · rw [if_neg h48]
    by_cases h49 : c.toNat = 49
    · rw [if_pos h49]; decide
    · rw [if_neg h49]
      by_cases h53 : c.toNat = 53
      · rw [if_pos h53]; decide
      · rw [if_neg h53]
        unfold goodChar
        omega

theorem mk_data (s : String) : String.mk s.data = s := rfl

theorem normalizeName_good (s : String) : ∀ c ∈ (normalizeName s).data, goodChar c := by
  intro c hc
  have hd : (normalizeName s).data =
      ((stripTokens (jsTrim (jsToLower s)).data).filter isAlnumLower).map substituteChar := rfl
  rw [hd] at hc
  obtain ⟨c2, hc2, rfl⟩ := List.mem_map.mp hc
  exact substituteChar_mem_good c2 (List.mem_filter.mp hc2).2

theorem toLowerChar_good {c : Char} (h : goodChar c) : toLowerChar c = c := by
  unfold goodChar at h
  unfold toLowerChar
  rw [if_neg (by omega)]

theorem isWS_good {c : Char} (h : goodChar c) : isWS c = false := by
  unfold goodChar at h
  simp only [isWS, Bool.or_eq_false_iff, decide_eq_false_iff_not]
  omega

theorem isAlnumLower_good {c : Char} (h : goodChar c) : isAlnumLower c = true := by
  unfold goodChar at h
  simp only [isAlnumLower, Bool.or_eq_true, Bool.and_eq_true, decide_eq_true_eq]
  omega

theorem substituteChar_good {c : Char} (h : goodChar c) : substituteChar c = c := by
  unfold goodChar at h
  unfold substituteChar
  rw [if_neg (by omega), if_neg (by omega), if_neg (by omega)]

theorem map_id_of {α : Type} (f : α → α) :
    ∀ l : List α, (∀ c ∈ l, f c = c) → l.map f = l := by
  intro l h
  induction l with
  | nil => rfl
  | cons x xs ih =>
    simp only [List.map_cons, h x (by simp)]
    rw [ih (fun c hc => h c (by simp [hc]))]

theorem trimList_id (l : List Char) (h : ∀ c ∈ l, isWS c = false) : trimList l = l := by
  unfold trimList
  have h1 : l.dropWhile isWS = l := by
    cases l with
    | nil => rfl
    | cons x xs =>
      rw [List.dropWhile_cons_of_neg]
      simp [h x (by simp)]
  rw [h1]
  have h2 : l.reverse.dropWhile isWS = l.reverse := by
    cases hr : l.reverse with
    | nil => rfl
    | cons x xs =>
      rw [List.dropWhile_cons_of_neg]
      have hx : x ∈ l := by
        rw [← List.mem_reverse, hr]
        simp
      simp [h x hx]
  rw [h2, List.reverse_reverse]

theorem length_zero_eq {s : String} (h : s.length = 0) : s = "" := by
  cases s with
  | mk l =>
    cases l with
    | nil => rfl
    | cons c cs => simp [String.length] at h

theorem find?_none_ne {d : String} {l : List String}
    (hex : l.find? (fun card => normalizeName card == normalizeName d) = none) :
    ∀ card ∈ l, normalizeName card ≠ normalizeName d := by
  intro card hc
  have := List.find?_eq_none.mp hex card hc
  simpa using this

theorem maxLen_ne_zero {d card : String}
    (h : normalizeName card ≠ normalizeName d) :
    max (normalizeName d).length (normalizeName card).length ≠ 0 := by
  intro h0
  apply h
  have hm := Nat.max_eq_zero_iff.mp h0
  rw [length_zero_eq hm.1, length_zero_eq hm.2]

theorem validate_eq_filterMap :
    ∀ found missing : List String,
      validateDetected found missing =
        found.filterMap (fun name =>
          (missing.find? (fun m => storageNameMatches m name)).map
            (fun m => if m = "" then name else m)) := by
  intro found missing
  induction found with
  | nil => rfl
  | cons n fs ih =>
    simp only [validateDetected] at ih ⊢
    rw [List.filter_cons]
    by_cases h : (missing.any (fun m => storageNameMatches m n)) = true
    · rw [if_pos h]
      obtain ⟨m, hm⟩ : ∃ m, missing.find? (fun mm => storageNameMatches mm n) = some m := by
        have hs : (missing.find? (fun mm => storageNameMatches mm n)).isSome := by
          rw [List.find?_isSome]
          simpa [List.any_eq_true] using h
        exact Option.isSome_iff_exists.mp hs
      have hf : (fun name => (List.find? (fun m2 => storageNameMatches m2 name) missing).map
          (fun m2 => if m2 = "" then name else m2)) n = some (if m = "" then n else m) := by
        show (List.find? (fun m2 => storageNameMatches m2 n) missing).map
          (fun m2 => if m2 = "" then n else m2) = some (if m = "" then n else m)
        rw [hm]
        rfl
      rw [List.map_cons, hm,
        @List.filterMap_cons_some _ _
          (fun name => (List.find? (fun m2 => storageNameMatches m2 name) missing).map
            (fun m2 => if m2 = "" then name else m2)) n fs _ hf, ih]
    · rw [if_neg h]
      have hnone : missing.find? (fun mm => storageNameMatches mm n) = none := by
        rw [List.find?_eq_none]
        intro x hx hpx
        exact h (by rw [List.any_eq_true]; exact ⟨x, hx, hpx⟩)
      have hf : (fun name => (List.find? (fun m2 => storageNameMatches m2 name) missing).map
          (fun m2 => if m2 = "" then name else m2)) n = none := by
        show (List.find? (fun m2 => storageNameMatches m2 n) missing).map
          (fun m2 => if m2 = "" then n else m2) = none
        rw [hnone]
        rfl
      rw [@List.filterMap_cons_none _ _
          (fun name => (List.find? (fun m2 => storageNameMatches m2 name) missing).map
            (fun m2 => if m2 = "" then name else m2)) n fs hf, ih]

/-- C1: the spec asserts `normalize("Pikachu VMAX") == normalize("pikachu")`.
The code violates it: in the suffix-stripping alternation the bare `v`
alternative precedes `vmax`, and JavaScript alternation is first-match-wins,
so only `" V"` of `" VMAX"` is removed and `normalizeName "Pikachu VMAX"`
is `"pikachumax"`, not `"pikachu"`.  This theorem evaluates the code at the
failing input. -/
theorem normalizeName_vmax_divergence :
    normalizeName "Pikachu VMAX" = "pikachumax" ∧
    normalizeName "pikachu" = "pikachu" ∧
    normalizeName "Pikachu VMAX" ≠ normalizeName "pikachu" :=
  ⟨by decide, by decide, by decide⟩

/-- C2 (counterexample): normalization is not idempotent for every string.
For `"e.x"` the first pass only deletes the dot, producing `"ex"`, and a
second pass then strips the `ex` token, producing `""`. -/
theorem normalizeName_not_idempotent :
    normalizeName (normalizeName "e.x") ≠ normalizeName "e.x" := by decide

/-- C2 (amended): normalization is idempotent for every string whose
normalized form is left unchanged by the variant-token stripper — on such
outputs the remaining pipeline stages (lower-casing, trimming, filtering,
digit substitution) are all no-ops, because the output alphabet is lowercase
letters and the undisturbed digits. -/
theorem normalizeName_idempotent_of_stripFixed (s : String)
    (h : stripTokens (normalizeName s).data = (normalizeName s).data) :
    normalizeName (normalizeName s) = normalizeName s := by
  have hgood : ∀ c ∈ (normalizeName s).data, goodChar c := normalizeName_good s
  have hlower : jsToLower (normalizeName s) = normalizeName s := by
    unfold jsToLower
    rw [map_id_of _ _ (fun c hc => toLowerChar_good (hgood c hc))]
  have htrim : jsTrim (normalizeName s) = normalizeName s := by
    unfold jsTrim
    rw [trimList_id _ (fun c hc => isWS_good (hgood c hc))]
  have hfil : (normalizeName s).data.filter isAlnumLower = (normalizeName s).data :=
    List.filter_eq_self.mpr (fun c hc => isAlnumLower_good (hgood c hc))
  have hsub : (normalizeName s).data.map substituteChar = (normalizeName s).data :=
    map_id_of _ _ (fun c hc => substituteChar_good (hgood c hc))
  show String.mk (((stripTokens (jsTrim (jsToLower (normalizeName s))).data).filter
      isAlnumLower).map substituteChar) = normalizeName s
  rw [hlower, htrim, h, hfil, hsub]

theorem normalizeName_idempotent_witness :
    stripTokens (normalizeName "pikachu").data = (normalizeName "pikachu").data ∧
    normalizeName (normalizeName "pikachu") = normalizeName "pikachu" :=
  ⟨by decide, normalizeName_idempotent_of_stripFixed "pikachu" (by decide)⟩

/-- C3 (counterexample): a kept detected name is not always replaced by the
first canonical entry satisfying the predicate.  The empty canonical string
matches every detected name (the empty substring is contained in anything),
so against `[""]` the name `"Zorua"` is kept and `""` is its first — and
only — matching canonical entry; but the source's `find(...) || name`
treats the found `""` as falsy and returns the raw `"Zorua"`, which is not
a canonical entry at all. -/
theorem validateDetected_empty_canonical_counterexample :
    List.find? (fun m => storageNameMatches m "Zorua") [""] = some "" ∧
    validateDetected ["Zorua"] [""] = ["Zorua"] ∧
    validateDetected ["Zorua"] [""] ≠ [""] :=
  ⟨by decide, by decide, by decide⟩

/-- C3 (amended): the validation pass of `findMissingPokemonInImage` keeps a
detected name exactly when some canonical entry matches it under the
case-insensitive equal-or-contains-either-way predicate; each kept name is
replaced by the first matching canonical entry in list order unless that
entry is the empty string, in which case the raw detected name passes
through (JavaScript `||` treats `""` as falsy); output order follows input
order and duplicates are not deduplicated — i.e. it is `filterMap` of
`find?` with the empty-string fallback — and on
`["pikachu", "mew two", "nonexistent"]` against `["Pikachu", "Mewtwo"]` it
returns `["Pikachu"]` (the space in `"mew two"` defeats containment). -/
theorem validateDetected_falsiness_spec :
    (∀ found missing : List String,
      validateDetected found missing =
        found.filterMap (fun name =>
          (missing.find? (fun m => storageNameMatches m name)).map
            (fun m => if m = "" then name else m))) ∧
    validateDetected ["pikachu", "mew two", "nonexistent"] ["Pikachu", "Mewtwo"] = ["Pikachu"] :=
  ⟨validate_eq_filterMap, by decide⟩

/-- C4: when some canonical entry has the same normalized form as the
detected string, `findMatchingCard` returns the first such entry in list
order with confidence exactly 1, without consulting the later tiers. -/
theorem findMatchingCard_exact_tier (d : String) (l : List String) (c : String)
    (h : l.find? (fun card => normalizeName card == normalizeName d) = some c) :
    findMatchingCard d l = ⟨some c, 1⟩ := by
  simp only [findMatchingCard]
  rw [h]

theorem findMatchingCard_exact_tier_witness :
    findMatchingCard "Charizard" ["Charizard", "Blastoise"] = ⟨some "Charizard", 1⟩ :=
  findMatchingCard_exact_tier "Charizard" ["Charizard", "Blastoise"] "Charizard" (by decide)

/-- C5: when no canonical entry is an exact normalized match, the result is
the first canonical entry (in list order) whose normalized form contains or
is contained in the normalized detected string with length ratio strictly
above 0.7, and the confidence is that ratio; containing entries at or below
the threshold are skipped rather than ending the tier (that is the `find?`
over `containPred`). -/
theorem findMatchingCard_containment_tier (d : String) (l : List String) (c : String)
    (hex : l.find? (fun card => normalizeName card == normalizeName d) = none)
    (hfind : l.find? (containPred (normalizeName d)) = some c) :
    findMatchingCard d l = ⟨some c, ratioOf (normalizeName d) (normalizeName c)⟩ := by
  simp only [findMatchingCard]
  rw [hex, containTier_eq (normalizeName d) l, hfind]
  rfl

theorem findMatchingCard_containment_tier_witness :
    findMatchingCard "Charizar" ["Charizard"] = ⟨some "Charizard", 8/9⟩ := by
  have h := findMatchingCard_containment_tier "Charizar" ["Charizard"] "Charizard"
    (by decide) (by decide)
  rw [h]
  decide

/-- C10: if the detected string normalizes to the empty string, and some
canonical entry also normalizes to the empty string, the exact tier already
fires: the first such entry is returned with confidence 1. -/
theorem findMatchingCard_empty_normalization (d : String) (l : List String) (c : String)
    (hd : normalizeName d = "")
    (hfind : l.find? (fun card => normalizeName card == "") = some c) :
    findMatchingCard d l = ⟨some c, 1⟩ := by
  simp only [findMatchingCard, hd]
  rw [hfind]

theorem findMatchingCard_empty_normalization_witness :
    findMatchingCard "!!!" ["GX"] = ⟨some "GX", 1⟩ :=
  findMatchingCard_empty_normalization "!!!" ["GX"] "GX" (by decide) (by decide)

/-- C8: the core functions are total — in this embedding they are plain
terminating functions — and the degenerate inputs the spec singles out
evaluate without failure: the empty string normalizes to the empty string,
an empty canonical list yields the no-match result, and the case where both
normalized strings are empty (here `"ex"` and `"gx"`, both of which strip to
`""`) is absorbed by the exact tier before any zero denominator is reached. -/
theorem core_totality :
    normalizeName "" = "" ∧
    findMatchingCard "" [] = ⟨none, 0⟩ ∧
    findMatchingCard "ex" ["gx"] = ⟨some "gx", 1⟩ :=
  ⟨by decide, by decide, by decide⟩

/-- C9: `levenshteinDistance` computes classic unit-cost edit distance:
0 on identical strings, the other string's length when one side is empty,
and 3 on the kitten/sitting example. -/
theorem levenshteinDistance_spec :
    (∀ s : String, levenshteinDistance s s = 0) ∧
    (∀ s : String, levenshteinDistance "" s = s.length ∧
      levenshteinDistance s "" = s.length) ∧
    levenshteinDistance "kitten" "sitting" = 3 := by
  refine ⟨?_, ?_, by decide⟩
  · intro s
    rw [levenshteinDistance_eq]
    exact lev_self _
  · intro s
    constructor
    · have h1 : levenshteinDistance "" s = lev [] s.data.reverse :=
        levenshteinDistance_eq "" s
      rw [h1]
      unfold lev
      rw [List.length_reverse]
      rfl
    · have h2 : levenshteinDistance s "" = lev s.data.reverse [] :=
        levenshteinDistance_eq s ""
      rw [h2, lev_nil_right, List.length_reverse]
      rfl

/-- C7: a non-null match returned by `findMatchingCard` is always one of the
strings of the input canonical list, verbatim. -/
theorem findMatchingCard_matched_mem (d : String) (l : List String) (c : String)
    (h : (findMatchingCard d l).matched = some c) : c ∈ l := by
  simp only [findMatchingCard] at h
  cases hfe : l.find? (fun card => normalizeName card == normalizeName d) with
  | some card =>
    rw [hfe] at h
    simp at h
    subst h
    exact List.mem_of_find?_eq_some hfe
  | none =>
    rw [hfe] at h
    simp only [] at h
    cases hct : containTier (normalizeName d) l with
    | some pr =>
      obtain ⟨card, conf⟩ := pr
      rw [hct] at h
      simp at h
      have hEq := containTier_eq (normalizeName d) l
      rw [hct] at hEq
      cases hf2 : l.find? (containPred (normalizeName d)) with
      | none =>
        rw [hf2] at hEq
        simp at hEq
      | some card2 =>
        rw [hf2] at hEq
        simp at hEq
        subst h
        rw [hEq.1]
        exact List.mem_of_find?_eq_some hf2
    | none =>
      rw [hct] at h
      simp at h
      have hp : fuzzyLoop (normalizeName d) l none 0 =
          (some c, (fuzzyLoop (normalizeName d) l none 0).2) := by
        rw [← h]
      rcases fuzzyLoop_mem (normalizeName d) l none 0 c _ hp with hb | hm
      · simp at hb
      · exact hm

theorem findMatchingCard_matched_mem_witness :
    (findMatchingCard "Charmeleon" ["Charmeleon"]).matched = some "Charmeleon" ∧
    "Charmeleon" ∈ ["Charmeleon"] :=
  ⟨by decide, findMatchingCard_matched_mem "Charmeleon" ["Charmeleon"] "Charmeleon" (by decide)⟩

/-- C6: when neither the exact tier nor the containment tier succeeds, the
fuzzy tier returns the canonical entry with the highest
`1 - distance/maxLen` similarity provided it exceeds 0.75 (ties broken in
favour of the earliest list entry, expressed here by the strict/non-strict
split around the winner), and `{match: null, confidence: 0}` when no entry
exceeds the threshold. -/
theorem findMatchingCard_fuzzy_tier (d : String) (l : List String)
    (hex : l.find? (fun card => normalizeName card == normalizeName d) = none)
    (hcon : containTier (normalizeName d) l = none) :
    ((∀ c ∈ l, fuzzySim (normalizeName d) (normalizeName c) ≤ 3/4) →
        findMatchingCard d l = ⟨none, 0⟩) ∧
    (∀ l1 c l2, l = l1 ++ c :: l2 →
        fuzzySim (normalizeName d) (normalizeName c) > 3/4 →
        (∀ x ∈ l1, fuzzySim (normalizeName d) (normalizeName x) <
          fuzzySim (normalizeName d) (normalizeName c)) →
        (∀ x ∈ l2, fuzzySim (normalizeName d) (normalizeName x) ≤
          fuzzySim (normalizeName d) (normalizeName c)) →
        findMatchingCard d l = ⟨some c, fuzzySim (normalizeName d) (normalizeName c)⟩) := by
  constructor
  · intro hall
    simp only [findMatchingCard]
    rw [hex, hcon]
    have hstay := fuzzyLoop_stay (normalizeName d) l none 0
      (fun c hc => Or.inr (fun hand => absurd hand.2 (not_lt.mpr (hall c hc))))
    simp [hstay]
  · intro l1 c l2 hsplit hthr hbefore hafter
    have hne : ∀ card ∈ l, normalizeName card ≠ normalizeName d := find?_none_ne hex
    have hc0 : max (normalizeName d).length (normalizeName c).length ≠ 0 :=
      maxLen_ne_zero (hne c (by rw [hsplit]; simp))
    subst hsplit
    simp only [findMatchingCard]
    rw [hex, hcon]
    obtain ⟨b2, s2, heq, hs2⟩ :=
      fuzzyLoop_prefix (normalizeName d)
        (fuzzySim (normalizeName d) (normalizeName c)) l1 (c :: l2) none 0
        (lt_trans (by norm_num) hthr)
        (fun x hx => Or.inl (hbefore x hx))
    have hcond : fuzzySim (normalizeName d) (normalizeName c) > s2 ∧
        fuzzySim (normalizeName d) (normalizeName c) > 3/4 := ⟨hs2, hthr⟩
    have hcond2 := hcond
    simp only [fuzzySim] at hcond2
    have hstep : fuzzyLoop (normalizeName d) (c :: l2) b2 s2 =
        fuzzyLoop (normalizeName d) l2 (some c)
          (fuzzySim (normalizeName d) (normalizeName c)) := by
      simp only [fuzzyLoop, if_neg hc0]
      rw [if_pos hcond2]
      simp only [fuzzySim]
    have hrest := fuzzyLoop_stay (normalizeName d) l2 (some c)
      (fuzzySim (normalizeName d) (normalizeName c))
      (fun x hx => Or.inr (fun hand => absurd hand.1 (not_lt.mpr (hafter x hx))))
    rw [heq, hstep, hrest]

theorem findMatchingCard_fuzzy_tier_witness :
    findMatchingCard "Pikachi" ["Pikachu"] = ⟨some "Pikachu", 6/7⟩ := by
  have h := (findMatchingCard_fuzzy_tier "Pikachi" ["Pikachu"] (by decide) (by decide)).2
    [] "Pikachu" [] rfl (by decide)
    (fun x hx => absurd hx (List.not_mem_nil x))
    (fun x hx => absurd hx (List.not_mem_nil x))
  rw [h]
  decide
